import Mathlib

/-!
Verification of the feed-building pipeline in `build-feeds.mjs`.

The script downloads a sitemap, scrapes each post page for metadata, and
renders an RSS feed, a Google News sitemap and an image sitemap.  This file
gives a shallow embedding of the script's pure core: strings are `List Char`,
JavaScript `Date` values are integer millisecond timestamps (`Int`, as
returned by `Date.prototype.getTime`), nullable values are `Option`, and the
network / DOM layer is represented by the data it produces (a parsed sitemap
tree, a `Page` of extracted DOM signals).  JavaScript truthiness of strings
(empty string is falsy) is modelled explicitly.
-/

/-- Strings are modelled as lists of characters, so that the JavaScript
string operations (slice, lastIndexOf, trim, replace) can be embedded as
structurally recursive functions. -/
abbrev Str := List Char

/-- Whitespace test used by the embedding of the regular expression `\s`
and of `String.prototype.trim`. -/
def isWs (c : Char) : Bool :=
  c = ' ' || c = '\t' || c = '\n' || c = '\r'

/-- Embedding of `String.prototype.trim`: drop whitespace from both ends. -/
def trimL (l : Str) : Str :=
  ((l.dropWhile isWs).reverse.dropWhile isWs).reverse

/-- Embedding of `str.replace(/\s+/g, ' ')`: every maximal run of whitespace
characters becomes a single space. -/
def collapseWs : Str → Str
  | [] => []
  | [c] => if isWs c then [' '] else [c]
  | c1 :: c2 :: rest =>
    if isWs c1 && isWs c2 then collapseWs (c2 :: rest)
    else (if isWs c1 then ' ' else c1) :: collapseWs (c2 :: rest)

/-- The cleaned string computed at the start of `truncateWords`:
`str.replace(/\s+/g, ' ').trim()`. -/
def cleanStr (s : Str) : Str := trimL (collapseWs s)

/-- Embedding of `String.prototype.lastIndexOf(' ')`: the index of the last
space of the list, `none` when there is no space (the JavaScript `-1`). -/
def lastSpaceIdx : Str → Option Nat
  | [] => none
  | c :: rest =>
    match lastSpaceIdx rest with
    | some i => some (i + 1)
    | none => if c = ' ' then some 0 else none

/-- Embedding of `truncateWords(str, max)` from `build-feeds.mjs`:
normalise whitespace, return the cleaned string when it fits, otherwise cut
at the last space inside the first `max + 1` characters (falling back to a
hard cut at `max` when that space does not exist or sits at index 0), trim,
and append the one-character ellipsis. -/
def truncateWords (s : Str) (mx : Nat) : Str :=
  if s.isEmpty then []
  else
    let clean := cleanStr s
    if clean.length ≤ mx then clean
    else
      let cut := clean.take (mx + 1)
      let body :=
        match lastSpaceIdx cut with
        | some i => if 0 < i then cut.take i else cut.take mx
        | none => cut.take mx
      trimL body ++ ['…']

/-- One global single-character replacement pass, the embedding of
`String.prototype.replace(/c/g, r)` for a one-character pattern `c`. -/
def replaceChar (c : Char) (r : Str) : Str → Str
  | [] => []
  | x :: xs => (if x = c then r else [x]) ++ replaceChar c r xs

/-- The five XML entities used by `esc`. -/
def escAmp : Str := ['&', 'a', 'm', 'p', ';']

/-- Entity for the lower-than sign. -/
def escLt : Str := ['&', 'l', 't', ';']

/-- Entity for the greater-than sign. -/
def escGt : Str := ['&', 'g', 't', ';']

/-- Entity for the double quote. -/
def escQuot : Str := ['&', 'q', 'u', 'o', 't', ';']

/-- Entity for the apostrophe. -/
def escApos : Str := ['&', 'a', 'p', 'o', 's', ';']

/-- Embedding of `esc` from `build-feeds.mjs`: the ampersand is replaced
first, then the four other special characters, exactly as the chained
`.replace` calls do. -/
def esc (s : Str) : Str :=
  replaceChar (Char.ofNat 39) escApos
    (replaceChar '"' escQuot
      (replaceChar '>' escGt
        (replaceChar '<' escLt
          (replaceChar '&' escAmp s))))

/-- Modelled from the spec: standard XML unescaping of the five predefined
entities, reading the text left to right and turning each entity back into
its character.  The script itself never unescapes; this definition follows
the spec's words in order to state the round-trip property. -/
def xmlUnescape : Str → Str
  | '&' :: 'a' :: 'm' :: 'p' :: ';' :: r2 => '&' :: xmlUnescape r2
  | '&' :: 'l' :: 't' :: ';' :: r2 => '<' :: xmlUnescape r2
  | '&' :: 'g' :: 't' :: ';' :: r2 => '>' :: xmlUnescape r2
  | '&' :: 'q' :: 'u' :: 'o' :: 't' :: ';' :: r2 => '"' :: xmlUnescape r2
  | '&' :: 'a' :: 'p' :: 'o' :: 's' :: ';' :: r2 => Char.ofNat 39 :: xmlUnescape r2
  | c :: rest => c :: xmlUnescape rest
  | [] => []

/-- Per-character view of `esc`: what one character contributes to the
escaped output.  Because no replacement string contains a character that a
later `.replace` pass rewrites (the entities only reuse the ampersand, which
is replaced first), the five chained passes act independently per character. -/
def escChar (x : Char) : Str :=
  if x = '&' then escAmp
  else if x = '<' then escLt
  else if x = '>' then escGt
  else if x = '"' then escQuot
  else if x = Char.ofNat 39 then escApos
  else [x]

/-! ## JavaScript truthiness helpers -/

/-- Truthiness of a nullable string: `null`, `undefined` and the empty
string are falsy. -/
def optTruthy : Option Str → Bool
  | some s => !s.isEmpty
  | none => false

/-- Embedding of `a || b` where `a` is a nullable string and `b` a string:
the left operand wins when it is truthy. -/
def jsOrSS (a : Option Str) (b : Str) : Str :=
  match a with
  | some s => if s.isEmpty then b else s
  | none => b

/-- Embedding of `a || b` for two plain strings. -/
def strOr (a b : Str) : Str :=
  if a.isEmpty then b else a

/-- Embedding of `a || b` for two nullable strings. -/
def jsOrOO (a b : Option Str) : Option Str :=
  if optTruthy a then a else b

/-! ## Sitemap reader (`fetchSitemapPostUrls`, `isPostUrl`) -/

/-- The URL-path pattern of post pages, the literal prefix checked by the
anchored regular expression inside `isPostUrl`. -/
def postPat : Str := "https://www.seumestrefinanceiro.com.br/post/".toList

/-- Embedding of `isPostUrl`: the anchored regular expression
`^https:\/\/www\.seumestrefinanceiro\.com\.br\/post\/` contains only literal
characters, so it tests exactly that the URL starts with `postPat`. -/
def isPostUrl (u : Str) : Bool := postPat.isPrefixOf u

/-- The `loc` field of a sitemap `url` entry as produced by the XML parser:
either a plain string or an element object whose text, when present, sits
under the `#text` key. -/
inductive LocField where
  | locStr (s : Str)
  | locObj (text : Option Str)
deriving DecidableEq

/-- One entry of `urlset.url`; the `loc` member may be missing. -/
structure UrlEntry where
  loc : Option LocField
deriving DecidableEq

/-- The parsed `urlset.url` field: the XML parser returns a single object
when the sitemap holds one URL and an array otherwise. -/
inductive UrlField where
  | one (e : UrlEntry)
  | many (es : List UrlEntry)
deriving DecidableEq

/-- The text extracted from one entry:
`typeof u?.loc === 'string' ? u.loc : u?.loc?.['#text']`. -/
def locText (u : UrlEntry) : Option Str :=
  match u.loc with
  | some (.locStr s) => some s
  | some (.locObj t) => t
  | none => none

/-- Helper for the de-duplication below: keep the first occurrence of each
string, remembering in `seen` what was already emitted. -/
def dedupGo (seen : List Str) : List Str → List Str
  | [] => []
  | x :: xs => if x ∈ seen then dedupGo seen xs else x :: dedupGo (x :: seen) xs

/-- Embedding of `Array.from(new Set(urls))`: a JavaScript `Set` remembers
insertion order, so the conversion keeps the first occurrence of each
element. -/
def dedupKeepFirst (l : List Str) : List Str := dedupGo [] l

/-- Embedding of the pure part of `fetchSitemapPostUrls`, applied to the
parsed sitemap document: read `data?.urlset?.url || []`, wrap a single
entry into an array, extract the `loc` text of each entry, drop falsy
values (`filter(Boolean)` also removes empty strings), keep post URLs and
de-duplicate. -/
def fetchSitemapPostUrls (data : Option UrlField) : List Str :=
  let raw : List UrlEntry :=
    match data with
    | none => []
    | some (.one e) => [e]
    | some (.many es) => es
  let urls :=
    (raw.map locText).filterMap (fun o =>
      match o with
      | some s => if s.isEmpty then none else some s
      | none => none)
  dedupKeepFirst (urls.filter (fun u => isPostUrl u))

/-! ## Article records and the scraper (`scrapeArticle`) -/

/-- The record produced by `scrapeArticle` for one page:
`{ url, title, desc, date, lastmod, image, images }`.  Dates are integer
millisecond timestamps (the value of `Date.prototype.getTime`). -/
structure Record where
  url : Str
  title : Str
  desc : Str
  date : Option Int
  lastmod : Option Int
  image : Option Str
  images : List Str
deriving DecidableEq

/-- The DOM signals `scrapeArticle` reads from a successfully fetched and
parsed page: raw attribute values are nullable strings, element texts are
plain strings (empty when the element is missing), `ldBlocks` holds one
entry per `ld+json` script (`none` for a block whose `JSON.parse` throws,
otherwise the array of objects with their `datePublished` / `dateModified`
members), and `contentImgs` holds the `src` attribute of every in-content
image element in document order. -/
structure Page where
  ogTitle : Option Str
  h1text : Str
  titleText : Str
  metaDesc : Option Str
  ogDesc : Option Str
  firstP : Str
  pubMetaP : Option Str
  pubMetaN : Option Str
  modMetaP : Option Str
  modMetaN : Option Str
  ldBlocks : List (Option (List (Option Str × Option Str)))
  timeAttr : Option Str
  ogImageSecure : Option Str
  ogImage : Option Str
  twitterImage : Option Str
  linkImageSrc : Option Str
  contentImgs : List (Option Str)
deriving DecidableEq

/-- Embedding of `parseFirstDate` over an abstract date parser `pd`
standing for `new Date(value)` plus the `isNaN` validity check: falsy
input (missing or empty) yields `null`. -/
def parseFirstDate (pd : Str → Option Int) (v : Option Str) : Option Int :=
  match v with
  | some s => if s.isEmpty then none else pd s
  | none => none

/-- One step of the `ld+json` loop body: adopt `datePublished` /
`dateModified` of the current object when the corresponding variable is
still falsy and the object's member is truthy. -/
def ldStep (pm : Option Str × Option Str) (it : Option Str × Option Str) :
    Option Str × Option Str :=
  (if !optTruthy pm.1 && optTruthy it.1 then it.1 else pm.1,
   if !optTruthy pm.2 && optTruthy it.2 then it.2 else pm.2)

/-- The `$('script[type="application/ld+json"]').each(...)` loop: invalid
blocks are skipped, valid ones are folded with `ldStep`.  The `break` once
both dates are set is invisible because `ldStep` is the identity from that
point on. -/
def ldScan (pm : Option Str × Option Str) :
    List (Option (List (Option Str × Option Str))) → Option Str × Option Str
  | [] => pm
  | none :: rest => ldScan pm rest
  | some arr :: rest => ldScan (arr.foldl ldStep pm) rest

/-- Title resolution of `scrapeArticle`:
`(ogTitle || h1 || titleTag || url).trim()` where `h1` and `titleTag` are
the already-trimmed element texts. -/
def articleTitle (pg : Page) (url : Str) : Str :=
  trimL (jsOrSS pg.ogTitle (strOr (trimL pg.h1text) (strOr (trimL pg.titleText) url)))

/-- Description resolution of `scrapeArticle`: meta description, else
`og:description`, else the first paragraph text, each run through
`truncateWords(·, 220)`. -/
def articleDesc (pg : Page) : Str :=
  let desc0 := trimL (jsOrSS pg.metaDesc (jsOrSS pg.ogDesc []))
  if desc0.isEmpty then truncateWords (trimL pg.firstP) 220
  else truncateWords desc0 220

/-- Date resolution of `scrapeArticle`: meta tags, then the `ld+json`
blocks when some part is missing, then the `time[datetime]` attribute for
the published date; both raw values go through `parseFirstDate` and
`lastmod` is `modDate || pubDate || null`. -/
def articleDates (pd : Str → Option Int) (pg : Page) : Option Int × Option Int :=
  let pm0 := (jsOrOO pg.pubMetaP (jsOrOO pg.pubMetaN none),
              jsOrOO pg.modMetaP (jsOrOO pg.modMetaN none))
  let pm1 :=
    if !optTruthy pm0.1 || !optTruthy pm0.2 then ldScan pm0 pg.ldBlocks else pm0
  let published :=
    if !optTruthy pm1.1 && optTruthy pg.timeAttr then pg.timeAttr else pm1.1
  let pubDate := parseFirstDate pd published
  let modDate := parseFirstDate pd pm1.2
  (pubDate, match modDate with | some d => some d | none => pubDate)

/-- Primary-image resolution of `scrapeArticle`: the meta / link signals in
preference order, the first in-content image as fallback, then resolution
against the page URL (`res` stands for `toAbsUrl`, whose `new URL` call may
fail and yield `null`). -/
def articleImageAbs (res : Str → Str → Option Str) (pg : Page) (url : Str) :
    Option Str :=
  let img0 := jsOrOO pg.ogImageSecure
      (jsOrOO pg.ogImage (jsOrOO pg.twitterImage (jsOrOO pg.linkImageSrc none)))
  let headSrc := match pg.contentImgs with | [] => none | o :: _ => o
  let img1 := if !optTruthy img0 && optTruthy headSrc then headSrc else img0
  match img1 with
  | some s => if s.isEmpty then none else res s url
  | none => none

/-- The `allImg.add(abs)` loop of `scrapeArticle`: each in-content image
with a truthy `src` that resolves gets appended unless already present —
a JavaScript `Set` keeps insertion order and skips duplicates. -/
def addImgs (res : Str → Str → Option Str) (url : Str) :
    List Str → List (Option Str) → List Str
  | acc, [] => acc
  | acc, o :: rest =>
    let abs : Option Str :=
      match o with
      | some s => if s.isEmpty then none else res s url
      | none => none
    match abs with
    | some a =>
      if a ∈ acc then addImgs res url acc rest
      else addImgs res url (acc ++ [a]) rest
    | none => addImgs res url acc rest

/-- The `images` list of `scrapeArticle`: the primary image first when it
exists, then the resolved in-content images, de-duplicated and truncated to
`maxImgs` (`MAX_IMAGES_PER_URL`). -/
def articleImages (res : Str → Str → Option Str) (pg : Page) (url : Str)
    (maxImgs : Nat) : List Str :=
  let base : List Str :=
    match articleImageAbs res pg url with
    | some a => [a]
    | none => []
  (addImgs res url base pg.contentImgs).take maxImgs

/-- Embedding of `scrapeArticle`: a failed fetch or parse (the `catch`
branch, reached on timeout, non-success status or a `loadHTML` error) is
modelled by `fetched = none` and yields the degraded record; a parsed page
yields the field-by-field resolution above.  The function is total: no
exception escapes. -/
def scrapeArticle (res : Str → Str → Option Str) (pd : Str → Option Int)
    (maxImgs : Nat) (url : Str) (fetched : Option Page) : Record :=
  match fetched with
  | none =>
    { url := url, title := url, desc := [], date := none, lastmod := none,
      image := none, images := [] }
  | some pg =>
    { url := url
      title := articleTitle pg url
      desc := articleDesc pg
      date := (articleDates pd pg).1
      lastmod := (articleDates pd pg).2
      image := articleImageAbs res pg url
      images := articleImages res pg url maxImgs }

/-! ## Feed assembly (`run`, `buildNewsSitemap`) -/

/-- Insertion step of the stable descending sort: the new element `x` stems
from earlier in the input, so on equal keys it stays in front, exactly as
the stable `Array.prototype.sort` behaves with the comparator
`(a, b) => key(b) - key(a)`. -/
def insertDescBy {α : Type} (key : α → Int) (x : α) : List α → List α
  | [] => [x]
  | y :: ys => if key y ≤ key x then x :: y :: ys else y :: insertDescBy key x ys

/-- Stable descending sort by an integer key, the embedding of
`.sort((a, b) => key(b) - key(a))`. -/
def sortDescBy {α : Type} (key : α → Int) (l : List α) : List α :=
  l.foldr (insertDescBy key) []

/-- Default of `MAX_RSS_ITEMS`. -/
def MAX_RSS_ITEMS : Nat := 50

/-- Default of `NEWS_WINDOW_MS`: 48 hours in milliseconds. -/
def NEWS_WINDOW_MS : Int := 172800000

/-- Default of `MAX_IMAGES_PER_URL`. -/
def MAX_IMAGES_PER_URL : Nat := 5

/-- The sort key attached in `run`:
`sortDate: m.date ? m.date.getTime() : 0` — an absent date sorts as the
epoch timestamp `0`, not as the current time. -/
def rssSortKey (m : Record) : Int :=
  match m.date with
  | some t => t
  | none => 0

/-- The `ordered` list of `run`: all scraped records sorted by `sortDate`
descending. -/
def orderedMetas (metas : List Record) : List Record :=
  sortDescBy rssSortKey metas

/-- The `rssItems` list of `run`: the first `MAX_RSS_ITEMS` records of the
ordered list. -/
def rssItems (metas : List Record) : List Record :=
  (orderedMetas metas).take MAX_RSS_ITEMS

/-- The window filter of `buildNewsSitemap`:
`articles.filter(a => a.date && a.date.getTime() >= cutoff)` with
`cutoff = Date.now() - windowMs`. -/
def newsFresh (articles : List Record) (nowMs windowMs : Int) : List Record :=
  articles.filter fun a =>
    match a.date with
    | some t => decide (nowMs - windowMs ≤ t)
    | none => false

/-- The `fresh` list of `buildNewsSitemap`: window filter, stable
descending sort on the published date, hard cap at 1000 entries. -/
def newsSelected (articles : List Record) (nowMs windowMs : Int) : List Record :=
  (sortDescBy (fun a => a.date.getD 0) (newsFresh articles nowMs windowMs)).take 1000

/-- The data rendered into one `<url>` element of the news sitemap: the
entity-escaped location, publication name, language and title, and the
publication date timestamp (its ISO-8601 serialisation is an injective
formatting of this value and is elided). -/
structure NewsEntry where
  loc : Str
  pubName : Str
  pubLang : Str
  pubDate : Int
  newsTitle : Str
deriving DecidableEq

/-- One rendered news entry: the title goes through
`truncateWords(a.title, 160)` before escaping. -/
def renderNewsEntry (publicationName langISO : Str) (a : Record) : NewsEntry :=
  { loc := esc a.url
    pubName := esc publicationName
    pubLang := esc langISO
    pubDate := a.date.getD 0
    newsTitle := esc (truncateWords a.title 160) }

/-- Embedding of `buildNewsSitemap`: filter to the trailing window, sort
descending, cap at 1000, render one entry per remaining record.  `Date.now()`
is passed in as `nowMs`. -/
def buildNewsSitemap (publicationName langISO : Str) (articles : List Record)
    (windowMs nowMs : Int) : List NewsEntry :=
  let cutoff := nowMs - windowMs
  let fresh :=
    (sortDescBy (fun a => a.date.getD 0)
      (articles.filter fun a =>
        match a.date with
        | some t => decide (cutoff ≤ t)
        | none => false)).take 1000
  fresh.map (renderNewsEntry publicationName langISO)

/-! ## Concrete fixtures used by witnesses and counterexamples -/

/-- A resolver for which every URL reference fails to resolve. -/
def resNone : Str → Str → Option Str := fun _ _ => none

/-- A resolver returning the reference unchanged (every reference is
already absolute). -/
def resId : Str → Str → Option Str := fun s _ => some s

/-- A date parser for which no string is a valid date. -/
def pdNone : Str → Option Int := fun _ => none

/-- A record whose published timestamp is one second before the epoch. -/
def recA : Record :=
  { url := ['a'], title := ['a'], desc := [], date := some (-1000),
    lastmod := none, image := none, images := [] }

/-- A record with no published timestamp. -/
def recB : Record :=
  { url := ['b'], title := ['b'], desc := [], date := none,
    lastmod := none, image := none, images := [] }

/-- A record with a small positive published timestamp. -/
def recP : Record :=
  { url := ['p'], title := ['p'], desc := [], date := some 100,
    lastmod := none, image := none, images := [] }

/-- A record published 47 hours before the epoch (`now = 0` in tests). -/
def r47 : Record :=
  { url := ['f'], title := ['f'], desc := [], date := some (-169200000),
    lastmod := none, image := none, images := [] }

/-- A record published 49 hours before the epoch. -/
def r49 : Record :=
  { url := ['g'], title := ['g'], desc := [], date := some (-176400000),
    lastmod := none, image := none, images := [] }

/-- A record without a valid timestamp. -/
def rN : Record :=
  { url := ['n'], title := ['n'], desc := [], date := none,
    lastmod := none, image := none, images := [] }

/-- A record with the given published timestamp. -/
def mkRec (i : Int) : Record :=
  { url := ['u'], title := ['t'], desc := [], date := some i,
    lastmod := none, image := none, images := [] }

/-- Records with timestamps `n, n-1, …, 0`, newest first. -/
def mkDesc : Nat → List Record
  | 0 => [mkRec 0]
  | n + 1 => mkRec (Int.ofNat (n + 1)) :: mkDesc n

/-- 1001 distinct records, all inside any non-negative news window around
`now = 0` extended to future timestamps. -/
def bigArts : List Record := mkDesc 1000

/-- A page with no signals at all. -/
def pgEmpty : Page :=
  { ogTitle := none, h1text := [], titleText := [], metaDesc := none,
    ogDesc := none, firstP := [], pubMetaP := none, pubMetaN := none,
    modMetaP := none, modMetaN := none, ldBlocks := [], timeAttr := none,
    ogImageSecure := none, ogImage := none, twitterImage := none,
    linkImageSrc := none, contentImgs := [] }

/-- A page whose only title signal is a whitespace-only `og:title`
attribute — truthy in JavaScript, empty after `.trim()`. -/
def pgWsTitle : Page := { pgEmpty with ogTitle := some [' '] }

/-- A page with a meta primary image that also occurs among the in-content
images, plus a distinct in-content image appearing twice. -/
def pgImgs : Page :=
  { pgEmpty with ogImage := some ['m'],
                 contentImgs := [some ['i'], some ['m'], some ['i']] }

/-- A 251-character string with a space at position 100: cleaning is the
identity and truncation at 220 cuts at that space. -/
def cw : Str := List.replicate 100 'a' ++ [' '] ++ List.replicate 150 'b'

/-- 221 identical letters: one word longer than the 220-character cap. -/
def aa221 : Str := List.replicate 221 'a'

/-- A parsed sitemap document with a duplicated post URL (string `loc`), a
non-post URL, a post URL in element-object form, and an entry without
`loc`. -/
def dataEx : Option UrlField :=
  some (.many
    [{ loc := some (.locStr (postPat ++ ['a'])) },
     { loc := some (.locStr (postPat ++ ['a'])) },
     { loc := some (.locStr ['x']) },
     { loc := some (.locObj (some (postPat ++ ['b']))) },
     { loc := none }])

/-- Decidable form of "every present timestamp in the list is positive";
`posDates` holding rules out records dated at or before the epoch, whose
sort key would collide with the absent-date fallback key 0. -/
def posDates (metas : List Record) : Bool :=
  metas.all fun m =>
    match m.date with
    | some t => decide (0 < t)
    | none => true

/-- Whether a nullable attribute is a truthy whitespace-only string — the
one shape that survives the `||` chain yet trims to nothing. -/
def ogWsOnly (o : Option Str) : Bool :=
  match o with
  | some s => !s.isEmpty && (trimL s).isEmpty
  | none => false

/-! ## Helper lemmas -/

theorem dropWhile_eq_cons_false {p : Char → Bool} {l : Str} {x : Char} {xs : Str}
    (h : l.dropWhile p = x :: xs) : p x = false := by
  induction l with
  | nil => simp at h
  | cons c cs ih =>
    rw [List.dropWhile_cons] at h
    by_cases hp : p c = true
    · rw [if_pos hp] at h
      exact ih h
    · rw [if_neg hp] at h
      cases h
      simpa using hp

theorem trimL_length_le (l : Str) : (trimL l).length ≤ l.length := by
  unfold trimL
  calc ((l.dropWhile isWs).reverse.dropWhile isWs).reverse.length
      = ((l.dropWhile isWs).reverse.dropWhile isWs).length := List.length_reverse _
    _ ≤ (l.dropWhile isWs).reverse.length := (List.dropWhile_sublist _).length_le
    _ = (l.dropWhile isWs).length := List.length_reverse _
    _ ≤ l.length := (List.dropWhile_sublist _).length_le

theorem trimL_eq_nil_iff (l : Str) : trimL l = [] ↔ ∀ c ∈ l, isWs c = true := by
  unfold trimL
  rw [List.reverse_eq_nil_iff, List.dropWhile_eq_nil_iff]
  constructor
  · intro h c hc
    have hsplit : l.takeWhile isWs ++ l.dropWhile isWs = l :=
      List.takeWhile_append_dropWhile isWs l
    rcases List.mem_append.mp (hsplit ▸ hc) with h1 | h2
    · exact List.mem_takeWhile_imp h1
    · exact h _ (List.mem_reverse.mpr h2)
  · intro h c hc
    exact h c ((List.dropWhile_sublist isWs).subset (List.mem_reverse.mp hc))

theorem trimL_trimL_ne_nil {l : Str} (h : trimL l ≠ []) : trimL (trimL l) ≠ [] := by
  have hb : (l.dropWhile isWs).reverse.dropWhile isWs ≠ [] := by
    intro hx
    exact h (by unfold trimL; rw [hx]; rfl)
  rcases hB : (l.dropWhile isWs).reverse.dropWhile isWs with _ | ⟨x, xs⟩
  · exact absurd hB hb
  · have hxf : isWs x = false := dropWhile_eq_cons_false hB
    have hxmem : x ∈ trimL l := by
      unfold trimL
      rw [hB]
      exact List.mem_reverse.mpr (List.mem_cons_self x xs)
    intro hcon
    have := (trimL_eq_nil_iff (trimL l)).mp hcon x hxmem
    rw [hxf] at this
    exact Bool.false_ne_true this

theorem lastSpaceIdx_get {l : Str} {i : Nat} (h : lastSpaceIdx l = some i) :
    l[i]? = some ' ' := by
  induction l generalizing i with
  | nil => simp [lastSpaceIdx] at h
  | cons c cs ih =>
    rcases hr : lastSpaceIdx cs with _ | j
    · simp only [lastSpaceIdx, hr] at h
      by_cases hc : c = ' '
      · rw [if_pos hc] at h
        cases h
        simp [hc]
      · rw [if_neg hc] at h
        cases h
    · simp only [lastSpaceIdx, hr] at h
      cases h
      simpa using ih hr

theorem insertDescBy_perm {α : Type} (key : α → Int) (x : α) (l : List α) :
    List.Perm (insertDescBy key x l) (x :: l) := by
  induction l with
  | nil => exact List.Perm.refl _
  | cons y ys ih =>
    rw [insertDescBy]
    by_cases hk : key y ≤ key x
    · rw [if_pos hk]
    · rw [if_neg hk]
      exact (ih.cons y).trans (List.Perm.swap x y ys)

theorem sortDescBy_perm {α : Type} (key : α → Int) (l : List α) :
    List.Perm (sortDescBy key l) l := by
  induction l with
  | nil => exact List.Perm.refl _
  | cons x xs ih => exact (insertDescBy_perm key x _).trans (ih.cons x)

theorem mem_sortDescBy {α : Type} {key : α → Int} {a : α} {l : List α} :
    a ∈ sortDescBy key l ↔ a ∈ l :=
  (sortDescBy_perm key l).mem_iff

theorem insertDescBy_pairwise {α : Type} {key : α → Int} {x : α} {l : List α}
    (h : l.Pairwise (fun a b => key b ≤ key a)) :
    (insertDescBy key x l).Pairwise (fun a b => key b ≤ key a) := by
  induction l with
  | nil => simp [insertDescBy]
  | cons y ys ih =>
    rw [insertDescBy]
    rcases List.pairwise_cons.mp h with ⟨hy, hys⟩
    by_cases hk : key y ≤ key x
    · rw [if_pos hk]
      refine List.pairwise_cons.mpr ⟨?_, h⟩
      intro b hb
      rcases List.mem_cons.mp hb with rfl | hb
      · exact hk
      · exact le_trans (hy _ hb) hk
    · rw [if_neg hk]
      refine List.pairwise_cons.mpr ⟨?_, ih hys⟩
      intro b hb
      rcases List.mem_cons.mp ((insertDescBy_perm key x ys).mem_iff.mp hb) with rfl | hb
      · exact le_of_lt (lt_of_not_ge hk)
      · exact hy _ hb

theorem sortDescBy_pairwise {α : Type} (key : α → Int) (l : List α) :
    (sortDescBy key l).Pairwise (fun a b => key b ≤ key a) := by
  induction l with
  | nil => exact List.Pairwise.nil
  | cons x xs ih => exact insertDescBy_pairwise ih

theorem not_mem_dedupGo_of_mem {x : Str} {seen : List Str} {l : List Str}
    (hx : x ∈ seen) : x ∉ dedupGo seen l := by
  induction l generalizing seen with
  | nil => simp [dedupGo]
  | cons y ys ih =>
    rw [dedupGo]
    by_cases hy : y ∈ seen
    · rw [if_pos hy]
      exact ih hx
    · rw [if_neg hy]
      intro hmem
      rcases List.mem_cons.mp hmem with rfl | hmem
      · exact hy hx
      · exact ih (List.mem_cons_of_mem y hx) hmem

theorem dedupGo_nodup (seen : List Str) (l : List Str) : (dedupGo seen l).Nodup := by
  induction l generalizing seen with
  | nil => simp [dedupGo]
  | cons y ys ih =>
    rw [dedupGo]
    by_cases hy : y ∈ seen
    · rw [if_pos hy]
      exact ih seen
    · rw [if_neg hy]
      exact List.nodup_cons.mpr
        ⟨not_mem_dedupGo_of_mem (List.mem_cons_self y seen), ih (y :: seen)⟩

theorem mem_of_mem_dedupGo {x : Str} {seen : List Str} {l : List Str}
    (h : x ∈ dedupGo seen l) : x ∈ l := by
  induction l generalizing seen with
  | nil => simp [dedupGo] at h
  | cons y ys ih =>
    rw [dedupGo] at h
    by_cases hy : y ∈ seen
    · rw [if_pos hy] at h
      exact List.mem_cons_of_mem y (ih h)
    · rw [if_neg hy] at h
      rcases List.mem_cons.mp h with rfl | h
      · exact List.mem_cons_self x ys
      · exact List.mem_cons_of_mem y (ih h)

theorem addImgs_eq_append (res : Str → Str → Option Str) (url : Str)
    (l : List (Option Str)) :
    ∀ acc, ∃ t, addImgs res url acc l = acc ++ t := by
  induction l with
  | nil => exact fun acc => ⟨[], (List.append_nil acc).symm⟩
  | cons o rest ih =>
    intro acc
    rcases o with _ | s
    · simpa [addImgs] using ih acc
    · by_cases hs : s.isEmpty
      · simpa [addImgs, hs] using ih acc
      · rcases hres : res s url with _ | a
        · simpa [addImgs, hs, hres] using ih acc
        · by_cases hmem : a ∈ acc
          · simpa [addImgs, hs, hres, hmem] using ih acc
          · rcases ih (acc ++ [a]) with ⟨t, ht⟩
            refine ⟨a :: t, ?_⟩
            have hstep : addImgs res url acc (some s :: rest) =
                addImgs res url (acc ++ [a]) rest := by
              simp [addImgs, hs, hres, hmem]
            rw [hstep]
            simpa using ht

theorem addImgs_nodup (res : Str → Str → Option Str) (url : Str)
    (l : List (Option Str)) :
    ∀ acc : List Str, acc.Nodup → (addImgs res url acc l).Nodup := by
  induction l with
  | nil => exact fun acc h => h
  | cons o rest ih =>
    intro acc hacc
    rcases o with _ | s
    · simpa [addImgs] using ih acc hacc
    · by_cases hs : s.isEmpty
      · simpa [addImgs, hs] using ih acc hacc
      · rcases hres : res s url with _ | a
        · simpa [addImgs, hs, hres] using ih acc hacc
        · by_cases hmem : a ∈ acc
          · simpa [addImgs, hs, hres, hmem] using ih acc hacc
          · have : (acc ++ [a]).Nodup := by
              simp [List.nodup_append, hacc, hmem]
            simpa [addImgs, hs, hres, hmem] using ih (acc ++ [a]) this

theorem mem_addImgs (res : Str → Str → Option Str) (url : Str)
    (l : List (Option Str)) :
    ∀ acc x, x ∈ addImgs res url acc l →
      x ∈ acc ∨ ∃ s, (some s) ∈ l ∧ res s url = some x := by
  induction l with
  | nil =>
    intro acc x hx
    exact Or.inl (by simpa [addImgs] using hx)
  | cons o rest ih =>
    intro acc x hx
    rcases o with _ | s
    · rcases ih acc x (by simpa [addImgs] using hx) with h | ⟨s', hs', hr⟩
      · exact Or.inl h
      · exact Or.inr ⟨s', List.mem_cons_of_mem _ hs', hr⟩
    · by_cases hs : s.isEmpty
      · rcases ih acc x (by simpa [addImgs, hs] using hx) with h | ⟨s', hs', hr⟩
        · exact Or.inl h
        · exact Or.inr ⟨s', List.mem_cons_of_mem _ hs', hr⟩
      · rcases hres : res s url with _ | a
        · rcases ih acc x (by simpa [addImgs, hs, hres] using hx) with h | ⟨s', hs', hr⟩
          · exact Or.inl h
          · exact Or.inr ⟨s', List.mem_cons_of_mem _ hs', hr⟩
        · by_cases hmem : a ∈ acc
          · rcases ih acc x (by simpa [addImgs, hs, hres, hmem] using hx) with
              h | ⟨s', hs', hr⟩
            · exact Or.inl h
            · exact Or.inr ⟨s', List.mem_cons_of_mem _ hs', hr⟩
          · rcases ih (acc ++ [a]) x (by simpa [addImgs, hs, hres, hmem] using hx) with
              h | ⟨s', hs', hr⟩
            · rcases List.mem_append.mp h with h | h
              · exact Or.inl h
              · have hxa : x = a := by simpa using h
                exact Or.inr ⟨s, List.mem_cons_self _ _, hxa ▸ hres⟩
            · exact Or.inr ⟨s', List.mem_cons_of_mem _ hs', hr⟩

theorem replaceChar_append (c : Char) (r : Str) (a b : Str) :
    replaceChar c r (a ++ b) = replaceChar c r a ++ replaceChar c r b := by
  induction a with
  | nil => rfl
  | cons x xs ih => simp [replaceChar, ih, List.append_assoc]

theorem esc_append (a b : Str) : esc (a ++ b) = esc a ++ esc b := by
  unfold esc
  rw [replaceChar_append, replaceChar_append, replaceChar_append, replaceChar_append,
    replaceChar_append]

theorem esc_single (x : Char) : esc [x] = escChar x := by
  unfold escChar
  by_cases h1 : x = '&'
  · subst h1; rfl
  · by_cases h2 : x = '<'
    · subst h2; rfl
    · by_cases h3 : x = '>'
      · subst h3; rfl
      · by_cases h4 : x = '"'
        · subst h4; rfl
        · by_cases h5 : x = Char.ofNat 39
          · subst h5; rfl
          · simp [esc, replaceChar, h1, h2, h3, h4, h5]

theorem esc_cons (x : Char) (xs : Str) : esc (x :: xs) = escChar x ++ esc xs := by
  have : (x :: xs : Str) = [x] ++ xs := rfl
  rw [this, esc_append, esc_single]

set_option maxHeartbeats 1000000 in
theorem xmlUnescape_cons_ne (c : Char) (t : Str) (h : c ≠ '&') :
    xmlUnescape (c :: t) = c :: xmlUnescape t := by
  rw [xmlUnescape.eq_def]
  split
  · rename_i heq; cases heq; exact absurd rfl h
  · rename_i heq; cases heq; exact absurd rfl h
  · rename_i heq; cases heq; exact absurd rfl h
  · rename_i heq; cases heq; exact absurd rfl h
  · rename_i heq; cases heq; exact absurd rfl h
  · rename_i heq; cases heq; rfl
  · rename_i heq; cases heq

theorem mem_newsSelected_imp {articles : List Record} {nowMs windowMs : Int}
    {a : Record} (h : a ∈ newsSelected articles nowMs windowMs) :
    a ∈ articles ∧ ∃ t, a.date = some t ∧ nowMs - windowMs ≤ t := by
  have h1 : a ∈ sortDescBy (fun a => a.date.getD 0) (newsFresh articles nowMs windowMs) :=
    List.mem_of_mem_take h
  have h2 : a ∈ newsFresh articles nowMs windowMs := mem_sortDescBy.mp h1
  have h3 := List.mem_filter.mp h2
  refine ⟨h3.1, ?_⟩
  have h32 := h3.2
  rcases hd : a.date with _ | t
  · rw [hd] at h32
    simp at h32
  · rw [hd] at h32
    simp at h32
    exact ⟨t, rfl, by omega⟩

theorem mem_newsSelected_of (articles : List Record) {nowMs windowMs : Int}
    {a : Record} (hlen : (newsFresh articles nowMs windowMs).length ≤ 1000)
    (ha : a ∈ articles) {t : Int} (ht : a.date = some t)
    (hle : nowMs - windowMs ≤ t) :
    a ∈ newsSelected articles nowMs windowMs := by
  have hf : a ∈ newsFresh articles nowMs windowMs := by
    refine List.mem_filter.mpr ⟨ha, ?_⟩
    simp [ht, hle]
  have hs : a ∈ sortDescBy (fun a => a.date.getD 0) (newsFresh articles nowMs windowMs) :=
    mem_sortDescBy.mpr hf
  have hlen2 : (sortDescBy (fun a => a.date.getD 0)
      (newsFresh articles nowMs windowMs)).length ≤ 1000 := by
    rw [(sortDescBy_perm _ _).length_eq]
    exact hlen
  show a ∈ (sortDescBy (fun a => a.date.getD 0)
      (newsFresh articles nowMs windowMs)).take 1000
  rw [List.take_of_length_le hlen2]
  exact hs

/-! ## Claims -/

/-- C1: for every input URL, `scrapeArticle` never throws — its embedding
is a total function and the failure branch (any fetch or parse error,
modelled by `fetched = none`) returns the degraded record whose title
equals the input URL, whose description is empty, whose date, lastmod and
image are absent, and whose image list is empty. -/
theorem scrapeArticle_never_throws (res : Str → Str → Option Str)
    (pd : Str → Option Int) (maxImgs : Nat) (url : Str) :
    scrapeArticle res pd maxImgs url none =
      { url := url, title := url, desc := [], date := none, lastmod := none,
        image := none, images := [] } := rfl

/-- C6: XML-unescaping the output of `esc` restores the input string, for
every string (hence in particular for every ASCII string); consequently the
escaping of the five special characters is injective and every escaped text
field unescapes back to the original scraped text. -/
theorem esc_roundTrip (s : Str) : xmlUnescape (esc s) = s := by
  induction s with
  | nil => rfl
  | cons x xs ih =>
    rw [esc_cons]
    by_cases h1 : x = '&'
    · subst h1
      have hstep : xmlUnescape (escChar '&' ++ esc xs) = '&' :: xmlUnescape (esc xs) := rfl
      rw [hstep, ih]
    · by_cases h2 : x = '<'
      · subst h2
        have hstep : xmlUnescape (escChar '<' ++ esc xs) = '<' :: xmlUnescape (esc xs) := rfl
        rw [hstep, ih]
      · by_cases h3 : x = '>'
        · subst h3
          have hstep : xmlUnescape (escChar '>' ++ esc xs) = '>' :: xmlUnescape (esc xs) := rfl
          rw [hstep, ih]
        · by_cases h4 : x = '"'
          · subst h4
            have hstep : xmlUnescape (escChar '"' ++ esc xs) =
                '"' :: xmlUnescape (esc xs) := rfl
            rw [hstep, ih]
          · by_cases h5 : x = Char.ofNat 39
            · subst h5
              have hstep : xmlUnescape (escChar (Char.ofNat 39) ++ esc xs) =
                  Char.ofNat 39 :: xmlUnescape (esc xs) := rfl
              rw [hstep, ih]
            · have hgen : escChar x = [x] := by simp [escChar, h1, h2, h3, h4, h5]
              rw [hgen]
              show xmlUnescape (x :: esc xs) = x :: xs
              rw [xmlUnescape_cons_ne x _ h1, ih]

/-- C8: for every parsed sitemap document the extracted URL list has no
duplicates and every member matches the post-URL pattern; a single
`urlset.url` entry is treated exactly like a one-element array. -/
theorem fetchSitemapPostUrls_spec (data : Option UrlField) :
    (fetchSitemapPostUrls data).Nodup
    ∧ (∀ u ∈ fetchSitemapPostUrls data, isPostUrl u = true)
    ∧ (∀ e : UrlEntry, fetchSitemapPostUrls (some (.one e)) =
        fetchSitemapPostUrls (some (.many [e]))) := by
  refine ⟨dedupGo_nodup [] _, ?_, fun e => rfl⟩
  intro u hu
  have h1 := mem_of_mem_dedupGo hu
  exact (List.mem_filter.mp h1).2

/-- Witness for C8 at a concrete sitemap document: a duplicated post URL,
a non-post URL, an element-object post URL and a missing `loc`. -/
theorem fetchSitemapPostUrls_spec_witness :
    (fetchSitemapPostUrls dataEx).Nodup
    ∧ isPostUrl (postPat ++ ['a']) = true
    ∧ fetchSitemapPostUrls dataEx = [postPat ++ ['a'], postPat ++ ['b']] :=
  ⟨(fetchSitemapPostUrls_spec dataEx).1,
   (fetchSitemapPostUrls_spec dataEx).2.1 (postPat ++ ['a']) (by decide),
   by decide⟩

/-- C2 (amended): the news-sitemap selection only contains records with a
present, in-window published timestamp; records without a valid timestamp
are never included; and — provided at most 1000 records pass the window
filter — it includes exactly the in-window records, so with a fixed now the
47-hour-old record is kept and the 49-hour-old one is dropped.  The cap
proviso is forced by the hard `slice(0, 1000)` in the code. -/
theorem newsSelected_spec (articles : List Record) (nowMs windowMs : Int)
    (a : Record) :
    (a ∈ newsSelected articles nowMs windowMs →
      a ∈ articles ∧ ∃ t, a.date = some t ∧ nowMs - windowMs ≤ t)
    ∧ (a.date = none → a ∉ newsSelected articles nowMs windowMs)
    ∧ ((newsFresh articles nowMs windowMs).length ≤ 1000 →
        (a ∈ newsSelected articles nowMs windowMs ↔
          a ∈ articles ∧ ∃ t, a.date = some t ∧ nowMs - windowMs ≤ t)) := by
  refine ⟨fun h => mem_newsSelected_imp h, ?_, ?_⟩
  · intro hd h
    rcases (mem_newsSelected_imp h).2 with ⟨t, ht, -⟩
    rw [hd] at ht
    cases ht
  · intro hlen
    constructor
    · exact mem_newsSelected_imp
    · rintro ⟨ha, t, ht, hle⟩
      exact mem_newsSelected_of articles hlen ha ht hle

/-- Witness for C2 at `now = 0`, window 48 h: the record 47 hours old is
selected, the one 49 hours old is not, and the record without a timestamp
is not. -/
theorem newsSelected_spec_witness :
    r47 ∈ newsSelected [r47, r49, rN] 0 172800000
    ∧ r49 ∉ newsSelected [r47, r49, rN] 0 172800000
    ∧ rN ∉ newsSelected [r47, r49, rN] 0 172800000 := by
  refine ⟨?_, ?_, ?_⟩
  · exact ((newsSelected_spec [r47, r49, rN] 0 172800000 r47).2.2 (by decide)).mpr
      ⟨by decide, -169200000, by decide, by decide⟩
  · intro hmem
    rcases (newsSelected_spec [r47, r49, rN] 0 172800000 r49).1 hmem with ⟨-, t, ht, hle⟩
    simp [r49] at ht
    omega
  · exact (newsSelected_spec [r47, r49, rN] 0 172800000 rN).2.1 (by decide)

set_option maxRecDepth 40000 in
set_option maxHeartbeats 2000000 in
/-- Counterexample for C2 as stated: with 1001 distinct records all inside
the window, the oldest in-window record is dropped by the 1000-entry cap,
so the renderer does not include every in-window record. -/
theorem newsSelected_cx :
    mkRec 0 ∈ bigArts
    ∧ (mkRec 0).date = some 0
    ∧ ((0 : Int) - 172800000 ≤ 0)
    ∧ mkRec 0 ∉ newsSelected bigArts 0 172800000 := by
  refine ⟨by decide, by decide, by decide, by decide⟩

/-- C3 (amended): the RSS item list holds at most `MAX_RSS_ITEMS` records,
ordered by descending sort key, where an absent `publishedAt` is given the
fixed key 0 (the epoch) — never the current time; consequently absent-date
records are ordered last whenever every present timestamp is positive.  The
proviso is forced by the fallback key 0 sitting above genuine pre-1970
timestamps. -/
theorem rssItems_spec (metas : List Record) :
    (rssItems metas).length ≤ MAX_RSS_ITEMS
    ∧ (rssItems metas).Pairwise (fun a b => rssSortKey b ≤ rssSortKey a)
    ∧ (posDates metas = true →
        (rssItems metas).Pairwise (fun a b => a.date = none → b.date = none)) := by
  refine ⟨List.length_take_le _ _, ?_, ?_⟩
  · exact List.Pairwise.sublist (List.take_sublist _ _) (sortDescBy_pairwise _ _)
  · intro hpos
    refine List.Pairwise.imp_of_mem ?_
      (List.Pairwise.sublist (List.take_sublist _ _) (sortDescBy_pairwise rssSortKey metas))
    intro a b ha hb hkey hadn
    have hbm : b ∈ metas := mem_sortDescBy.mp (List.mem_of_mem_take hb)
    rcases hbd : b.date with _ | t
    · rfl
    · exfalso
      have hbp := List.all_eq_true.mp hpos b hbm
      rw [hbd] at hbp
      simp at hbp
      have hka : rssSortKey a = 0 := by simp [rssSortKey, hadn]
      have hkb : rssSortKey b = t := by simp [rssSortKey, hbd]
      rw [hka, hkb] at hkey
      omega

/-- Witness for C3: with one positively-dated and one undated record, the
undated record is ordered after the dated one. -/
theorem rssItems_spec_witness :
    posDates [recP, recB] = true
    ∧ (rssItems [recP, recB]).Pairwise (fun a b => a.date = none → b.date = none) :=
  ⟨by decide, (rssItems_spec [recP, recB]).2.2 (by decide)⟩

/-- Counterexample for C3 as stated: a record dated before the epoch sorts
below the key-0 fallback of an undated record, so the undated record comes
first, not last. -/
theorem rssItems_cx :
    recA.date = some (-1000) ∧ recB.date = none
    ∧ rssItems [recA, recB] = [recB, recA] := by
  refine ⟨by decide, by decide, by decide⟩

/-- C7: the news sitemap renders exactly one entry per selected record
(escaped location, publication name, language, publication date and
truncated title), the entry list is capped at 1000, and the selection is
sorted by descending published timestamp and drawn from the in-window
records of the input. -/
theorem buildNewsSitemap_spec (pub lang : Str) (articles : List Record)
    (windowMs nowMs : Int) :
    buildNewsSitemap pub lang articles windowMs nowMs =
      (newsSelected articles nowMs windowMs).map (renderNewsEntry pub lang)
    ∧ (buildNewsSitemap pub lang articles windowMs nowMs).length ≤ 1000
    ∧ (newsSelected articles nowMs windowMs).Pairwise
        (fun a b => b.date.getD 0 ≤ a.date.getD 0)
    ∧ ∀ a ∈ newsSelected articles nowMs windowMs,
        a ∈ articles ∧ ∃ t, a.date = some t ∧ nowMs - windowMs ≤ t := by
  refine ⟨rfl, ?_, ?_, fun a ha => mem_newsSelected_imp ha⟩
  · have h1 : buildNewsSitemap pub lang articles windowMs nowMs =
        (newsSelected articles nowMs windowMs).map (renderNewsEntry pub lang) := rfl
    rw [h1, List.length_map]
    exact List.length_take_le _ _
  · exact List.Pairwise.sublist (List.take_sublist _ _) (sortDescBy_pairwise _ _)

/-- Witness for C7 at a one-record input. -/
theorem buildNewsSitemap_spec_witness :
    (buildNewsSitemap ['P'] ['p'] [r47] 172800000 0).length ≤ 1000
    ∧ (r47 ∈ [r47] ∧ ∃ t, r47.date = some t ∧ (0 : Int) - 172800000 ≤ t) :=
  ⟨(buildNewsSitemap_spec ['P'] ['p'] [r47] 172800000 0).2.1,
   (buildNewsSitemap_spec ['P'] ['p'] [r47] 172800000 0).2.2.2 r47 (by decide)⟩

/-- C9: every entry of the rendered news sitemap carries, as its
`news:title`, the escaped result of `truncateWords(title, 160)` applied to
the title of the record it renders — not the raw scraped title. -/
theorem newsTitle_truncated (pub lang : Str) (articles : List Record)
    (windowMs nowMs : Int) (e : NewsEntry)
    (he : e ∈ buildNewsSitemap pub lang articles windowMs nowMs) :
    ∃ a ∈ newsSelected articles nowMs windowMs,
      e.newsTitle = esc (truncateWords a.title 160) ∧ e.loc = esc a.url := by
  have h1 : buildNewsSitemap pub lang articles windowMs nowMs =
      (newsSelected articles nowMs windowMs).map (renderNewsEntry pub lang) := rfl
  rw [h1] at he
  rcases List.mem_map.mp he with ⟨a, ha, hae⟩
  exact ⟨a, ha, by rw [← hae]; rfl, by rw [← hae]; rfl⟩

/-- Witness for C9 at a one-record input. -/
theorem newsTitle_truncated_witness :
    ∃ a ∈ newsSelected [r47] 0 172800000,
      (renderNewsEntry ['P'] ['p'] r47).newsTitle = esc (truncateWords a.title 160)
      ∧ (renderNewsEntry ['P'] ['p'] r47).loc = esc a.url :=
  newsTitle_truncated ['P'] ['p'] [r47] 172800000 0 _ (by decide)

/-- C4 (amended): when the cleaned input exceeds the 220-character cap,
`truncateWords` returns at most 221 characters (at most 220 characters of
content plus the one-character ellipsis) and always ends with the ellipsis;
when the first 221 cleaned characters contain a space after position 0 the
cut happens at the last such space — the character at the cut position is a
space, so no word is split — and otherwise the string is hard-cut at 220
characters, splitting the word.  The cap+1 length and the hard-cut fallback
are forced by the counterexample of a single 221-character word. -/
theorem truncateWords_cap (s : Str) (h : 220 < (cleanStr s).length) :
    (truncateWords s 220).length ≤ 221
    ∧ (truncateWords s 220).getLast? = some '…'
    ∧ (∀ i, lastSpaceIdx ((cleanStr s).take 221) = some i → 0 < i →
        ((cleanStr s).take 221)[i]? = some ' '
        ∧ truncateWords s 220 = trimL (((cleanStr s).take 221).take i) ++ ['…'])
    ∧ (lastSpaceIdx ((cleanStr s).take 221) = none →
        truncateWords s 220 = trimL (((cleanStr s).take 221).take 220) ++ ['…']) := by
  have hne : ¬(s.isEmpty = true) := by
    rcases s with _ | ⟨c, cs⟩
    · exfalso
      revert h
      decide
    · simp
  have hgt : ¬((cleanStr s).length ≤ 220) := by omega
  have hT : truncateWords s 220 =
      trimL (match lastSpaceIdx ((cleanStr s).take 221) with
        | some i => if 0 < i then ((cleanStr s).take 221).take i
                    else ((cleanStr s).take 221).take 220
        | none => ((cleanStr s).take 221).take 220) ++ ['…'] := by
    simp only [truncateWords]
    rw [if_neg hne, if_neg hgt]
  rcases hsp : lastSpaceIdx ((cleanStr s).take 221) with _ | i
  · rw [hsp] at hT
    have hT2 : truncateWords s 220 =
        trimL (((cleanStr s).take 221).take 220) ++ ['…'] := hT
    refine ⟨?_, ?_, ?_, fun _ => hT2⟩
    · rw [hT2]
      have h1 := trimL_length_le (((cleanStr s).take 221).take 220)
      have h2 := List.length_take_le 220 ((cleanStr s).take 221)
      simp only [List.length_append, List.length_cons, List.length_nil]
      omega
    · rw [hT2]
      exact List.getLast?_concat _
    · intro i hci
      cases hci
  · rw [hsp] at hT
    have hT2 : truncateWords s 220 =
        trimL (if 0 < i then ((cleanStr s).take 221).take i
               else ((cleanStr s).take 221).take 220) ++ ['…'] := hT
    by_cases hi : 0 < i
    · rw [if_pos hi] at hT2
      have hsi := lastSpaceIdx_get hsp
      have hilt : i < ((cleanStr s).take 221).length := by
        rcases List.getElem?_eq_some.mp hsi with ⟨hlt, -⟩
        exact hlt
      have hile : i ≤ 220 := by
        have := List.length_take_le 221 (cleanStr s)
        omega
      refine ⟨?_, ?_, ?_, ?_⟩
      · rw [hT2]
        have h1 := trimL_length_le (((cleanStr s).take 221).take i)
        have h2 := List.length_take_le i ((cleanStr s).take 221)
        simp only [List.length_append, List.length_cons, List.length_nil]
        omega
      · rw [hT2]
        exact List.getLast?_concat _
      · intro j hcj hj
        cases hcj
        exact ⟨hsi, hT2⟩
      · intro hcon
        cases hcon
    · rw [if_neg hi] at hT2
      refine ⟨?_, ?_, ?_, ?_⟩
      · rw [hT2]
        have h1 := trimL_length_le (((cleanStr s).take 221).take 220)
        have h2 := List.length_take_le 220 ((cleanStr s).take 221)
        simp only [List.length_append, List.length_cons, List.length_nil]
        omega
      · rw [hT2]
        exact List.getLast?_concat _
      · intro j hcj hj
        cases hcj
        exact absurd hj hi
      · intro hcon
        cases hcon

set_option maxRecDepth 4000 in
/-- Witness for C4 at a 251-character string whose last space inside the
first 221 characters sits at position 100. -/
theorem truncateWords_cap_witness :
    220 < (cleanStr cw).length
    ∧ (truncateWords cw 220).length ≤ 221
    ∧ (truncateWords cw 220).getLast? = some '…'
    ∧ ((cleanStr cw).take 221)[100]? = some ' '
    ∧ truncateWords cw 220 = trimL (((cleanStr cw).take 221).take 100) ++ ['…'] :=
  ⟨by decide, (truncateWords_cap cw (by decide)).1, (truncateWords_cap cw (by decide)).2.1,
   ((truncateWords_cap cw (by decide)).2.2.1 100 (by decide) (by decide)).1,
   ((truncateWords_cap cw (by decide)).2.2.1 100 (by decide) (by decide)).2⟩

set_option maxRecDepth 4000 in
/-- Counterexample for C4 as stated: a 221-character single word exceeds the
cap after cleaning, yet the output is 221 characters long (220 plus the
ellipsis, more than the cap) and the word is split mid-way rather than cut
at a space. -/
theorem truncateWords_cap_cx :
    220 < (cleanStr aa221).length
    ∧ (truncateWords aa221 220).length = 221
    ∧ truncateWords aa221 220 = List.replicate 220 'a' ++ ['…'] := by
  refine ⟨by decide, by decide, by decide⟩

theorem chain_title_ne_nil (url : Str) (pg : Page)
    (hurl : (trimL url).isEmpty = false) :
    trimL (strOr (trimL pg.h1text) (strOr (trimL pg.titleText) url)) ≠ [] := by
  by_cases h1 : (trimL pg.h1text).isEmpty
  · by_cases h2 : (trimL pg.titleText).isEmpty
    · simp only [strOr]
      rw [if_pos h1, if_pos h2]
      exact List.isEmpty_eq_false.mp hurl
    · simp only [strOr]
      rw [if_pos h1, if_neg h2]
      exact trimL_trimL_ne_nil (List.isEmpty_eq_false.mp (by simpa using h2))
  · simp only [strOr]
    rw [if_neg h1]
    exact trimL_trimL_ne_nil (List.isEmpty_eq_false.mp (by simpa using h1))

/-- C5 (amended): the scraped title is nonempty provided the `og:title`
attribute is not a truthy whitespace-only string and the URL does not trim
to nothing; and when no title signal exists the title is the trimmed input
URL (hence the URL itself whenever it carries no surrounding whitespace).
Both provisos are forced by the final `.trim()` in the code, witnessed by
the counterexample. -/
theorem scrapeTitle_spec (res : Str → Str → Option Str) (pd : Str → Option Int)
    (maxImgs : Nat) (url : Str) (pg : Page)
    (hog : ogWsOnly pg.ogTitle = false)
    (hurl : (trimL url).isEmpty = false) :
    (scrapeArticle res pd maxImgs url (some pg)).title ≠ []
    ∧ (pg.ogTitle = none → trimL pg.h1text = [] → trimL pg.titleText = [] →
        (scrapeArticle res pd maxImgs url (some pg)).title = trimL url) := by
  have htitle : (scrapeArticle res pd maxImgs url (some pg)).title =
      articleTitle pg url := rfl
  constructor
  · rw [htitle]
    rcases hO : pg.ogTitle with _ | os
    · simp only [articleTitle, hO, jsOrSS]
      exact chain_title_ne_nil url pg hurl
    · by_cases hs : os.isEmpty
      · simp only [articleTitle, hO, jsOrSS]
        rw [if_pos hs]
        exact chain_title_ne_nil url pg hurl
      · simp only [articleTitle, hO, jsOrSS]
        rw [if_neg hs]
        have hogs : ogWsOnly (some os) = false := by rw [← hO]; exact hog
        have hos : os.isEmpty = false := by simpa using hs
        simp only [ogWsOnly, hos] at hogs
        simp at hogs
        exact hogs
  · intro hOn h1 h2
    rw [htitle]
    simp only [articleTitle, hOn, jsOrSS, strOr, h1, h2]
    simp

/-- Witness for C5: on a page with no title signals and a plain URL the
title is the (trimmed) URL and in particular nonempty. -/
theorem scrapeTitle_spec_witness :
    (scrapeArticle resNone pdNone 5 ['u'] (some pgEmpty)).title ≠ []
    ∧ (scrapeArticle resNone pdNone 5 ['u'] (some pgEmpty)).title = trimL ['u'] :=
  ⟨(scrapeTitle_spec resNone pdNone 5 ['u'] pgEmpty (by decide) (by decide)).1,
   (scrapeTitle_spec resNone pdNone 5 ['u'] pgEmpty (by decide) (by decide)).2
     (by decide) (by decide) (by decide)⟩

/-- Counterexample for C5 as stated: a whitespace-only `og:title` is truthy
in JavaScript, so it wins the fallback chain and trims to the empty title;
and with no signals at all, a URL with surrounding whitespace yields the
trimmed URL, not the input URL verbatim. -/
theorem scrapeTitle_cx :
    (scrapeArticle resNone pdNone 5 ['u'] (some pgWsTitle)).title = []
    ∧ pgWsTitle.ogTitle = some [' ']
    ∧ (scrapeArticle resNone pdNone 5 [' ', 'u'] (some pgEmpty)).title ≠ [' ', 'u']
    ∧ pgEmpty.ogTitle = none ∧ trimL pgEmpty.h1text = []
    ∧ trimL pgEmpty.titleText = [] := by
  refine ⟨by decide, by decide, by decide, by decide, by decide, by decide⟩

/-- C10: when a successfully scraped record has a primary image, that image
heads the record's image list (even when it stems from a meta tag only);
the rest of the list consists of distinct resolved in-content images
different from the primary; and the whole list, duplicate-free, has length
at most `MAX_IMAGES_PER_URL`. -/
theorem scrapeImages_spec (res : Str → Str → Option Str) (pd : Str → Option Int)
    (maxImgs : Nat) (url : Str) (pg : Page) (p : Str)
    (hp : (scrapeArticle res pd maxImgs url (some pg)).image = some p)
    (hm : 0 < maxImgs) :
    (scrapeArticle res pd maxImgs url (some pg)).images.head? = some p
    ∧ (scrapeArticle res pd maxImgs url (some pg)).images.length ≤ maxImgs
    ∧ (scrapeArticle res pd maxImgs url (some pg)).images.Nodup
    ∧ ∀ x ∈ (scrapeArticle res pd maxImgs url (some pg)).images.tail,
        x ≠ p ∧ ∃ s, (some s) ∈ pg.contentImgs ∧ res s url = some x := by
  have hp' : articleImageAbs res pg url = some p := hp
  have hio : (scrapeArticle res pd maxImgs url (some pg)).images =
      (addImgs res url [p] pg.contentImgs).take maxImgs := by
    show articleImages res pg url maxImgs = _
    simp only [articleImages, hp']
  rcases addImgs_eq_append res url pg.contentImgs [p] with ⟨t, hA⟩
  obtain ⟨m, rfl⟩ : ∃ m, maxImgs = m + 1 := ⟨maxImgs - 1, by omega⟩
  have htake : (addImgs res url [p] pg.contentImgs).take (m + 1) = p :: t.take m := by
    rw [hA]
    rfl
  have hnd : (addImgs res url [p] pg.contentImgs).Nodup :=
    addImgs_nodup res url pg.contentImgs [p] (by simp)
  refine ⟨?_, ?_, ?_, ?_⟩
  · rw [hio, htake]
    rfl
  · rw [hio]
    exact List.length_take_le _ _
  · rw [hio]
    exact List.Nodup.sublist (List.take_sublist _ _) hnd
  · intro x hx
    rw [hio, htake] at hx
    have hxt : x ∈ t := List.mem_of_mem_take (by simpa using hx)
    rw [hA] at hnd
    have hpn : p ∉ t := (List.nodup_cons.mp hnd).1
    have hxp : x ≠ p := fun he => hpn (he ▸ hxt)
    have horigin := mem_addImgs res url pg.contentImgs [p] x
      (by rw [hA]; exact List.mem_cons_of_mem p hxt)
    rcases horigin with hleft | ⟨s, hsmem, hres⟩
    · exact absurd (by simpa using hleft) hxp
    · exact ⟨hxp, s, hsmem, hres⟩

/-- Witness for C10: a meta-tag primary image heading the list, a distinct
in-content image following it, duplicates collapsed. -/
theorem scrapeImages_spec_witness :
    (scrapeArticle resId pdNone 5 ['u'] (some pgImgs)).image = some ['m']
    ∧ (scrapeArticle resId pdNone 5 ['u'] (some pgImgs)).images.head? = some ['m']
    ∧ (scrapeArticle resId pdNone 5 ['u'] (some pgImgs)).images.Nodup :=
  ⟨by decide,
   (scrapeImages_spec resId pdNone 5 ['u'] pgImgs ['m'] (by decide) (by decide)).1,
   (scrapeImages_spec resId pdNone 5 ['u'] pgImgs ['m'] (by decide) (by decide)).2.2.1⟩
